import Mathlib

/-!
Formal model of the source staging / patch / merge routine of the
android_rust build toolkit (`source_manager.py`): `apply_patches` and
`setup_files`.

The filesystem is modelled shallowly: a directory tree is an association
list from relative path to entry (regular file content or symlink target).
The persistent output directory additionally records a modification time
per entry, so that the frame property of the checksum-guarded sync
(`rsync -c` leaving unchanged files untouched) can be stated.

The external tools invoked by the routine (`patch`, `cp`, `rsync`) are not
part of the repository; they are modelled from their documented CLI
contracts: `patch -p1 -N` applies hunks, leaves reversed/already-applied
hunks alone (reporting them skipped), and exits 0 only when every hunk
was applied — a skipped hunk, like a real conflict, makes it exit 1;
`cp` copies the whole tree (fast reflink attempt, then a plain
fallback); `rsync -r --delete --links -c` rewrites exactly the files whose
content differs, deletes files absent from the source side, and preserves
symlinks.  A patch file is modelled at file granularity: a hunk replaces
one file's old content with new content.
-/

set_option autoImplicit false

namespace SourceManager

/-- A filesystem entry: a regular file with its byte content, or a
symbolic link with its target. -/
inductive Entry where
  | file (content : String)
  | link (target : String)
deriving DecidableEq, Repr

/-- A directory tree: an association list from relative path to entry. -/
abbrev Tree := List (String × Entry)

/-- An entry of the persistent output directory: content plus mtime. -/
structure OutFile where
  entry : Entry
  mtime : Nat
deriving DecidableEq, Repr

/-- The persistent output directory: paths mapped to timestamped entries. -/
abbrev OutDir := List (String × OutFile)

/-- Look up the entry at a path in a tree (first match). -/
def lookupTree : Tree → String → Option Entry
  | [], _ => none
  | (q, e) :: rest, p => if q = p then some e else lookupTree rest p

/-- Look up the timestamped entry at a path in an output directory. -/
def lookupOut : OutDir → String → Option OutFile
  | [], _ => none
  | (q, f) :: rest, p => if q = p then some f else lookupOut rest p

/-- Replace the content of the regular file at `p` with `c`. -/
def setContent : Tree → String → String → Tree
  | [], _, _ => []
  | pe :: rest, p, c =>
      (if pe.1 = p then (pe.1, Entry.file c) else pe) :: setContent rest p c

/-- One hunk of a patch file, modelled at file granularity: it rewrites
the file at `path` from `oldContent` to `newContent`. -/
structure Hunk where
  path : String
  oldContent : String
  newContent : String
deriving DecidableEq, Repr

/-- A patch file: its filename and its hunks. -/
structure PatchFile where
  name : String
  hunks : List Hunk
deriving DecidableEq, Repr

/-- Outcome of one hunk, as reported in the patch tool's output:
applied cleanly, skipped because reversed/already applied, or failed
with a real conflict. -/
inductive HunkStatus where
  | applied
  | skipped
  | failed
deriving DecidableEq, Repr

/-- Model of the external patch tool on one hunk (contract of
`patch -p1 -N`): if the target file holds the hunk's old content the hunk
is applied; if it already holds the new content the hunk is reversed /
already applied and is skipped as a no-op; otherwise it is a real
conflict and the file is left unchanged. -/
def applyHunk (t : Tree) (h : Hunk) : Tree × HunkStatus :=
  match lookupTree t h.path with
  | some (Entry.file c) =>
      if c = h.oldContent then (setContent t h.path h.newContent, HunkStatus.applied)
      else if c = h.newContent then (t, HunkStatus.skipped)
      else (t, HunkStatus.failed)
  | _ => (t, HunkStatus.failed)

/-- Run the hunks of one patch file in order, collecting each status. -/
def runHunks (t : Tree) : List Hunk → Tree × List HunkStatus
  | [] => (t, [])
  | h :: hs =>
      let r := applyHunk t h
      let rest := runHunks r.1 hs
      (rest.1, r.2 :: rest.2)

/-- Exit status of the modelled patch tool, as GNU patch reports it: 0
only when every hunk was applied; 1 when some hunk hit a real conflict or
was ignored as reversed/already applied — the tool prints the skip but
still exits non-zero, and the design notes of the spec record that skip
and failure share an exit status. -/
def patchExitCode (ss : List HunkStatus) : Nat :=
  if HunkStatus.failed ∈ ss ∨ HunkStatus.skipped ∈ ss then 1 else 0

/-- Result of `apply_patches`: either every selected patch was processed
(the process continues), or the routine called `sys.exit` on a failing
patch, recording the staging tree at that moment, the failing patch's
name, its captured output and the tool's exit status. -/
inductive PatchOutcome where
  | ok (tree : Tree) (log : List (String × List HunkStatus))
  | aborted (tree : Tree) (failedName : String) (out : List HunkStatus) (code : Nat)
deriving DecidableEq, Repr

/-- Lexicographic comparison of filenames by character code, the order
Python's `sorted()` applies to the globbed paths. -/
def charsLe : List Char → List Char → Bool
  | [], _ => true
  | _ :: _, [] => false
  | a :: as, b :: bs =>
      if a < b then true
      else if b < a then false
      else charsLe as bs

/-- Does the filename begin with the pattern's literal characters?  This
is what the glob pattern `rustc-*` matches. -/
def startsWithChars : List Char → List Char → Bool
  | _, [] => true
  | [], _ :: _ => false
  | a :: as, b :: bs => if a = b then startsWithChars as bs else false

/-- Whether a filename matches the `rustc-*` naming convention. -/
def matchesRustcGlob (s : String) : Bool :=
  startsWithChars s.data "rustc-".data

/-- The relation `sorted()` uses on the glob results: compare filenames. -/
def nameLe (p q : PatchFile) : Prop := charsLe p.name.data q.name.data = true

instance : DecidableRel nameLe :=
  fun p q => inferInstanceAs (Decidable (charsLe p.name.data q.name.data = true))

instance : IsTotal PatchFile nameLe := by
  constructor
  intro p q
  show charsLe p.name.data q.name.data = true ∨ charsLe q.name.data p.name.data = true
  generalize p.name.data = x
  generalize q.name.data = y
  induction x generalizing y with
  | nil => exact Or.inl rfl
  | cons a as ih =>
      cases y with
      | nil => exact Or.inr rfl
      | cons b bs =>
          rcases lt_trichotomy a b with h | h | h
          · left
            simp [charsLe, h]
          · subst h
            rcases ih bs with h2 | h2
            · left
              simp [charsLe, lt_self_iff_false, h2]
            · right
              simp [charsLe, lt_self_iff_false, h2]
          · right
            simp [charsLe, h]

instance : IsTrans PatchFile nameLe := by
  constructor
  intro p q r hpq hqr
  show charsLe p.name.data r.name.data = true
  have hpq2 : charsLe p.name.data q.name.data = true := hpq
  have hqr2 : charsLe q.name.data r.name.data = true := hqr
  clear hpq hqr
  generalize p.name.data = x at hpq2 ⊢
  generalize q.name.data = y at hpq2 hqr2
  generalize r.name.data = z at hqr2 ⊢
  revert hpq2 hqr2
  induction x generalizing y z with
  | nil =>
      intro h1 h2
      rfl
  | cons a as ih =>
      intro h1 h2
      cases y with
      | nil => simp [charsLe] at h1
      | cons b bs =>
          cases z with
          | nil => simp [charsLe] at h2
          | cons c cs =>
              by_cases hab : a < b
              · by_cases hbc : b < c
                · simp [charsLe, lt_trans hab hbc]
                · by_cases hcb : c < b
                  · simp [charsLe, hbc, hcb] at h2
                  · have hbceq : b = c := le_antisymm (not_lt.mp hcb) (not_lt.mp hbc)
                    subst hbceq
                    simp [charsLe, hab]
              · by_cases hba : b < a
                · simp [charsLe, hab, hba] at h1
                · have habeq : a = b := le_antisymm (not_lt.mp hba) (not_lt.mp hab)
                  subst habeq
                  have h1r : charsLe as bs = true := by
                    simpa [charsLe, lt_self_iff_false] using h1
                  by_cases hbc : a < c
                  · simp [charsLe, hbc]
                  · by_cases hcb : c < a
                    · simp [charsLe, hbc, hcb] at h2
                    · have hbceq : a = c := le_antisymm (not_lt.mp hcb) (not_lt.mp hbc)
                      subst hbceq
                      have h2r : charsLe bs cs = true := by
                        simpa [charsLe, lt_self_iff_false] using h2
                      have := ih bs cs h1r h2r
                      simpa [charsLe, lt_self_iff_false] using this

/-- `sorted(patch_dir.glob('rustc-*'))`: the patch files whose names
match the `rustc-*` convention, sorted by filename. -/
def patchList (patch_dir : List PatchFile) : List PatchFile :=
  List.insertionSort nameLe (patch_dir.filter (fun p => matchesRustcGlob p.name))

/-- The loop body of `apply_patches` over the already-selected list: run
the patch tool on each file; on a non-zero status, abort with that status
unless `no_patch_abort` is set, in which case continue past the failure
with the partially patched tree. -/
def runPatches (t : Tree) (no_patch_abort : Bool) : List PatchFile → PatchOutcome
  | [] => PatchOutcome.ok t []
  | p :: ps =>
      let r := runHunks t p.hunks
      let code := patchExitCode r.2
      if code ≠ 0 ∧ no_patch_abort = false then
        PatchOutcome.aborted r.1 p.name r.2 code
      else
        match runPatches r.1 no_patch_abort ps with
        | PatchOutcome.ok t2 lg => PatchOutcome.ok t2 ((p.name, r.2) :: lg)
        | ab => ab

/-- `apply_patches(code_dir, patch_dir, no_patch_abort)`: select the
`rustc-*` files of the patch directory in lexicographic filename order and
run the patch tool on each. -/
def apply_patches (code_dir : Tree) (patch_dir : List PatchFile)
    (no_patch_abort : Bool) : PatchOutcome :=
  runPatches code_dir no_patch_abort (patchList patch_dir)

/-- The tree carried by a patch outcome. -/
def PatchOutcome.tree : PatchOutcome → Tree
  | PatchOutcome.ok t _ => t
  | PatchOutcome.aborted t _ _ _ => t

/-- Environment of one `setup_files` invocation: behaviour of the two
`cp` attempts on this filesystem, what a failed copy command leaves
behind in the staging path, the failed command's exit status, and the
current time stamped onto files written during this run. -/
structure Env where
  fastCopyOk : Bool
  fallbackCopyOk : Bool
  copyLeftover : Tree
  cpExitCode : Nat
  now : Nat
deriving DecidableEq, Repr

/-- Filesystem state around the output path before a run: the persistent
output directory (if it exists), a stale staging directory possibly left
by a prior failed run, and whether the output path's parent directory
exists. -/
structure FState where
  output : Option OutDir
  staging : Option Tree
  parentExists : Bool
deriving DecidableEq, Repr

/-- How a run of `setup_files` terminates abnormally: the `TypeError`
raised by calling the `Path.parent` property as a method, a failure of
both copy attempts (`subprocess.check_call` raising), or `sys.exit` from
a failing patch. -/
inductive SetupError where
  | typeError
  | copyFailed (code : Nat)
  | patchFailed (name : String) (code : Nat)
deriving DecidableEq, Repr

/-- Result of one `setup_files` run: how it terminated, and the final
state of the output directory and of the staging directory. -/
structure SetupResult where
  error : Option SetupError
  output : Option OutDir
  staging : Option Tree
deriving DecidableEq, Repr

/-- Stamp every entry of a tree with one mtime, producing an output
directory.  Used for the rename promotion: the staged files were all
freshly written by `cp` (which does not retain source timestamps) and by
the patch tool. -/
def toOutDir (t : Tree) (now : Nat) : OutDir :=
  t.map (fun pe => (pe.1, OutFile.mk pe.2 now))

/-- What `rsync -c` does to one source-side entry, given the entry the
destination currently holds at that path: an unchanged file (same content
checksum) is left exactly as it was, a differing or missing file is
written fresh with the current time. -/
def syncFile (e : Entry) (prior : Option OutFile) (now : Nat) : OutFile :=
  match prior with
  | some f => if f.entry = e then f else OutFile.mk e now
  | none => OutFile.mk e now

/-- Model of `rsync -r --delete --links -c src/ dst` (contract of the
external sync tool): the destination ends up holding exactly the paths of
the source side; a destination file whose content checksum already
matches is left untouched (its mtime is preserved), a differing or new
file is rewritten with a fresh mtime, files absent from the source side
are deleted, and symlinks are carried over as symlinks. -/
def rsyncDir (staging : Tree) (dst : OutDir) (now : Nat) : OutDir :=
  staging.map (fun pe => (pe.1, syncFile pe.2 (lookupOut dst pe.1) now))

/-- `setup_files(input_dir, output_dir, patches_dir, no_patch_abort)`.

Steps, following the source: delete any stale staging directory; create
the output path's parent if missing (which in fact raises `TypeError`,
since the code calls the `Path.parent` property as a method); copy the
source tree into the staging path with `cp` (reflink fast path, plain
fallback; a failure of both aborts, leaving whatever the copy produced);
run `apply_patches` on the staging copy (a patch failure aborts via
`sys.exit`, leaving the partially patched staging in place); finally
promote: rename the staging directory if the output directory does not
exist, otherwise `rsync` the staging contents over it and delete the
staging directory. -/
def setup_files (env : Env) (input_dir : Tree) (st : FState)
    (patches_dir : List PatchFile) (no_patch_abort : Bool) : SetupResult :=
  -- the stale staging directory, if any, is removed before anything else
  if st.parentExists = false then
    -- tmp_output_dir.parent().mkdir(parents=True) raises TypeError
    { error := some SetupError.typeError, output := st.output, staging := none }
  else if env.fastCopyOk = false ∧ env.fallbackCopyOk = false then
    -- both cp attempts failed: check_call raises CalledProcessError
    { error := some (SetupError.copyFailed env.cpExitCode)
      output := st.output
      staging := some env.copyLeftover }
  else
    -- staging now holds a full copy of the source tree
    match apply_patches input_dir patches_dir no_patch_abort with
    | PatchOutcome.aborted t nm _ code =>
        -- sys.exit from apply_patches: staging left in place, no promotion
        { error := some (SetupError.patchFailed nm code)
          output := st.output
          staging := some t }
    | PatchOutcome.ok t _ =>
        match st.output with
        | none =>
            -- output directory does not exist: rename staging to output
            { error := none, output := some (toOutDir t env.now), staging := none }
        | some out0 =>
            -- output exists: rsync staging over it, then delete staging
            { error := none
              output := some (rsyncDir t out0 env.now)
              staging := none }

/-- Forget the timestamps of an output directory, keeping its contents. -/
def stripOut (od : OutDir) : Tree :=
  od.map (fun pf => (pf.1, pf.2.entry))

/-- All hunks of a list of patch files, in application order. -/
def allHunks : List PatchFile → List Hunk
  | [] => []
  | p :: ps => p.hunks ++ allHunks ps

/-! ### Concrete fixtures, used by the witness theorems -/

/-- A small source tree: two Rust files and a symlink. -/
def srcW : Tree :=
  [("a.rs", Entry.file "A0"), ("b.rs", Entry.file "B0"), ("ln", Entry.link "a.rs")]

def patchA : PatchFile := ⟨"rustc-0001-a.patch", [⟨"a.rs", "A0", "A1"⟩]⟩

def patchB : PatchFile := ⟨"rustc-0002-b.patch", [⟨"b.rs", "B0", "B1"⟩]⟩

/-- A file in the patch directory that does not match `rustc-*`. -/
def readmeW : PatchFile := ⟨"README", [⟨"a.rs", "A0", "AX"⟩]⟩

/-- A patch whose hunk matches neither the current nor the patched
content of `a.rs`: a real conflict. -/
def conflictW : PatchFile := ⟨"rustc-0003-c.patch", [⟨"a.rs", "ZZ", "Q"⟩]⟩

def envOk : Env := ⟨true, true, [], 1, 7⟩

def envFastFail : Env := ⟨false, true, [], 1, 7⟩

def envCopyFail : Env := ⟨false, false, [("half.rs", Entry.file "h")], 2, 7⟩

def envOk2 : Env := ⟨true, true, [], 1, 9⟩

def stEmpty : FState := ⟨none, none, true⟩

def stNoParent : FState := ⟨none, none, false⟩

def stStale : FState := ⟨none, some [("junk", Entry.file "j")], true⟩

/-- A state whose output directory already exists, holding one stale file
and an old copy of `a.rs` with an old timestamp. -/
def stPrior : FState :=
  ⟨some [("a.rs", ⟨Entry.file "A0", 3⟩), ("old.rs", ⟨Entry.file "X", 3⟩)], none, true⟩

/-! ### Basic lemmas about the filesystem model -/

theorem lookupTree_cons (r : String) (e : Entry) (rest : Tree) (p : String) :
    lookupTree ((r, e) :: rest) p = if r = p then some e else lookupTree rest p := rfl

theorem lookupOut_cons (r : String) (f : OutFile) (rest : OutDir) (p : String) :
    lookupOut ((r, f) :: rest) p = if r = p then some f else lookupOut rest p := rfl

theorem setContent_cons (r : String) (e : Entry) (rest : Tree) (p c : String) :
    setContent ((r, e) :: rest) p c =
      (if r = p then (r, Entry.file c) else (r, e)) :: setContent rest p c := rfl

theorem lookupTree_setContent (t : Tree) (p c q : String) :
    lookupTree (setContent t p c) q =
      if q = p then (lookupTree t q).map (fun _ => Entry.file c)
      else lookupTree t q := by
  induction t with
  | nil => simp [setContent, lookupTree]
  | cons pe rest ih =>
      obtain ⟨r, e⟩ := pe
      rw [setContent_cons]
      by_cases hrp : r = p
      · rw [if_pos hrp, lookupTree_cons, lookupTree_cons]
        by_cases hrq : r = q
        · have hqp : q = p := by rw [← hrq, hrp]
          rw [if_pos hrq, if_pos hrq, if_pos hqp]
          rfl
        · rw [if_neg hrq, if_neg hrq, ih]
      · rw [if_neg hrp, lookupTree_cons, lookupTree_cons]
        by_cases hrq : r = q
        · have hqp : ¬q = p := fun h => hrp (hrq.trans h)
          rw [if_pos hrq, if_pos hrq, if_neg hqp]
        · rw [if_neg hrq, if_neg hrq, ih]

theorem setContent_keys (t : Tree) (p c) :
    (setContent t p c).map Prod.fst = t.map Prod.fst := by
  induction t with
  | nil => rfl
  | cons pe rest ih =>
      by_cases h : pe.1 = p <;> simp [setContent, h, ih]

theorem applyHunk_keys (t : Tree) (h : Hunk) :
    (applyHunk t h).1.map Prod.fst = t.map Prod.fst := by
  unfold applyHunk
  split
  · split
    · exact setContent_keys t h.path h.newContent
    · split <;> rfl
  · rfl

theorem runHunks_keys (hs : List Hunk) (t : Tree) :
    (runHunks t hs).1.map Prod.fst = t.map Prod.fst := by
  induction hs generalizing t with
  | nil => rfl
  | cons h hs ih =>
      simp only [runHunks]
      rw [ih, applyHunk_keys]

theorem runPatches_keys (ps : List PatchFile) (t : Tree) (b : Bool) :
    (runPatches t b ps).tree.map Prod.fst = t.map Prod.fst := by
  induction ps generalizing t with
  | nil => rfl
  | cons p ps ih =>
      simp only [runPatches]
      split
      · simp [PatchOutcome.tree, runHunks_keys]
      · have hk := runHunks_keys p.hunks t
        have hi := ih (runHunks t p.hunks).1
        cases hr : runPatches (runHunks t p.hunks).1 b ps with
        | ok t2 lg =>
            rw [hr] at hi
            simp only [PatchOutcome.tree] at hi ⊢
            rw [hi]
            exact hk
        | aborted t2 nm out code =>
            rw [hr] at hi
            simp only [PatchOutcome.tree] at hi ⊢
            rw [hi]
            exact hk

/-! ### Lemmas about promotion: rename and rsync -/

theorem syncFile_entry (e : Entry) (prior : Option OutFile) (now : Nat) :
    (syncFile e prior now).entry = e := by
  cases prior with
  | none => rfl
  | some f =>
      by_cases h : f.entry = e
      · simp [syncFile, h]
      · simp [syncFile, h]

theorem toOutDir_cons (r : String) (e : Entry) (rest : Tree) (now : Nat) :
    toOutDir ((r, e) :: rest) now = (r, OutFile.mk e now) :: toOutDir rest now := rfl

theorem rsyncDir_cons (r : String) (e : Entry) (rest : Tree) (dst : OutDir) (now : Nat) :
    rsyncDir ((r, e) :: rest) dst now =
      (r, syncFile e (lookupOut dst r) now) :: rsyncDir rest dst now := rfl

theorem stripOut_keys (od : OutDir) : (stripOut od).map Prod.fst = od.map Prod.fst := by
  induction od with
  | nil => rfl
  | cons pf rest ih => simp [stripOut, ih]

theorem stripOut_toOutDir (t : Tree) (now : Nat) : stripOut (toOutDir t now) = t := by
  induction t with
  | nil => rfl
  | cons pe rest ih =>
      obtain ⟨r, e⟩ := pe
      simpa [toOutDir, stripOut] using ih

theorem stripOut_rsyncDir (t : Tree) (dst : OutDir) (now : Nat) :
    stripOut (rsyncDir t dst now) = t := by
  induction t with
  | nil => rfl
  | cons pe rest ih =>
      obtain ⟨r, e⟩ := pe
      rw [rsyncDir_cons]
      simpa [stripOut, syncFile_entry] using ih

theorem lookupOut_toOutDir (t : Tree) (now : Nat) (p : String) :
    lookupOut (toOutDir t now) p = (lookupTree t p).map (fun e => OutFile.mk e now) := by
  induction t with
  | nil => rfl
  | cons pe rest ih =>
      obtain ⟨r, e⟩ := pe
      rw [toOutDir_cons, lookupOut_cons, lookupTree_cons]
      by_cases hrp : r = p
      · rw [if_pos hrp, if_pos hrp]
        rfl
      · rw [if_neg hrp, if_neg hrp, ih]

theorem lookupOut_rsyncDir (t : Tree) (dst : OutDir) (now : Nat) (p : String) :
    lookupOut (rsyncDir t dst now) p =
      (lookupTree t p).map (fun e => syncFile e (lookupOut dst p) now) := by
  induction t with
  | nil => rfl
  | cons pe rest ih =>
      obtain ⟨r, e⟩ := pe
      rw [rsyncDir_cons, lookupOut_cons, lookupTree_cons]
      by_cases hrp : r = p
      · subst hrp
        rw [if_pos rfl, if_pos rfl]
        rfl
      · rw [if_neg hrp, if_neg hrp, ih]

theorem rsyncDir_cons_irrel (t : Tree) (r : String) (f : OutFile) (dst : OutDir)
    (now : Nat) (h : r ∉ t.map Prod.fst) :
    rsyncDir t ((r, f) :: dst) now = rsyncDir t dst now := by
  induction t with
  | nil => rfl
  | cons pe rest ih =>
      obtain ⟨q, e⟩ := pe
      have hq : ¬r = q := fun hh => h (by simp [hh])
      have hrest : r ∉ rest.map Prod.fst := fun hh => h (by simp [hh])
      rw [rsyncDir_cons, rsyncDir_cons, lookupOut_cons, if_neg hq, ih hrest]

/-- The checksum-guarded sync is the identity when the destination already
holds exactly the source-side contents: no file is rewritten, every mtime
is preserved. -/
theorem rsyncDir_eq_self (dst : OutDir) (t : Tree) (now : Nat)
    (hstrip : stripOut dst = t) (hnd : (t.map Prod.fst).Nodup) :
    rsyncDir t dst now = dst := by
  induction dst generalizing t with
  | nil =>
      subst hstrip
      rfl
  | cons pf rest ih =>
      obtain ⟨r, f⟩ := pf
      have hst : t = (r, f.entry) :: stripOut rest := by rw [← hstrip]; rfl
      subst hst
      have hkeys : ((r, f.entry) :: stripOut rest).map Prod.fst =
          r :: (stripOut rest).map Prod.fst := rfl
      rw [hkeys] at hnd
      have hr : r ∉ (stripOut rest).map Prod.fst := by
        have := List.nodup_cons.mp hnd
        exact this.1
      have hndrest : ((stripOut rest).map Prod.fst).Nodup := (List.nodup_cons.mp hnd).2
      rw [rsyncDir_cons, lookupOut_cons, if_pos rfl]
      have hhead : syncFile f.entry (some f) now = f := by
        simp [syncFile]
      rw [hhead, rsyncDir_cons_irrel _ _ _ _ _ hr, ih (stripOut rest) rfl hndrest]

/-! ### Lemmas about the patch run -/

theorem runHunks_cons (t : Tree) (h : Hunk) (hs : List Hunk) :
    runHunks t (h :: hs) =
      ((runHunks (applyHunk t h).1 hs).1,
        (applyHunk t h).2 :: (runHunks (applyHunk t h).1 hs).2) := rfl

theorem runPatches_cons (t : Tree) (b : Bool) (p : PatchFile) (ps : List PatchFile) :
    runPatches t b (p :: ps) =
      if patchExitCode (runHunks t p.hunks).2 ≠ 0 ∧ b = false then
        PatchOutcome.aborted (runHunks t p.hunks).1 p.name (runHunks t p.hunks).2
          (patchExitCode (runHunks t p.hunks).2)
      else
        match runPatches (runHunks t p.hunks).1 b ps with
        | PatchOutcome.ok t2 lg => PatchOutcome.ok t2 ((p.name, (runHunks t p.hunks).2) :: lg)
        | ab => ab := rfl

theorem patchExitCode_ne_zero (ss : List HunkStatus) (h : patchExitCode ss ≠ 0) :
    patchExitCode ss = 1 ∧ (HunkStatus.failed ∈ ss ∨ HunkStatus.skipped ∈ ss) := by
  by_cases hm : HunkStatus.failed ∈ ss ∨ HunkStatus.skipped ∈ ss
  · exact ⟨by simp [patchExitCode, hm], hm⟩
  · exact absurd (by simp [patchExitCode, hm]) h

theorem patchExitCode_applied (hs : List Hunk) :
    patchExitCode (hs.map (fun _ => HunkStatus.applied)) = 0 := by
  simp [patchExitCode]

theorem patchExitCode_skipped (hs : List Hunk) (h : hs ≠ []) :
    patchExitCode (hs.map (fun _ => HunkStatus.skipped)) = 1 := by
  cases hs with
  | nil => exact absurd rfl h
  | cons a as => simp [patchExitCode]

/-- A patch whose hunks are all reversed/already applied in the tree is a
no-op: every hunk is skipped and the tree is unchanged. -/
theorem runHunks_skipAll (hs : List Hunk) (t : Tree)
    (hpre : ∀ h ∈ hs, lookupTree t h.path = some (Entry.file h.newContent) ∧
      ¬h.oldContent = h.newContent) :
    runHunks t hs = (t, hs.map (fun _ => HunkStatus.skipped)) := by
  induction hs with
  | nil => rfl
  | cons h hs ih =>
      obtain ⟨hlook, hne⟩ := hpre h (by simp)
      have happ : applyHunk t h = (t, HunkStatus.skipped) := by
        simp only [applyHunk, hlook]
        rw [if_neg (fun hc : h.newContent = h.oldContent => hne hc.symm), if_pos trivial]
      have hrest := ih (fun h2 hm => hpre h2 (by simp [hm]))
      rw [runHunks_cons, happ, hrest]
      rfl

/-- A patch whose hunks all find their old content, at pairwise distinct
paths, applies cleanly: every hunk reports applied, afterwards every
touched path holds the new content, and untouched paths are unchanged. -/
theorem runHunks_clean (hs : List Hunk) (t : Tree)
    (hdist : hs.Pairwise (fun a b => a.path ≠ b.path))
    (hpre : ∀ h ∈ hs, lookupTree t h.path = some (Entry.file h.oldContent)) :
    (runHunks t hs).2 = hs.map (fun _ => HunkStatus.applied) ∧
    (∀ h ∈ hs, lookupTree (runHunks t hs).1 h.path = some (Entry.file h.newContent)) ∧
    (∀ p, p ∉ hs.map Hunk.path → lookupTree (runHunks t hs).1 p = lookupTree t p) := by
  induction hs generalizing t with
  | nil => exact ⟨rfl, by simp, fun p _ => rfl⟩
  | cons h hs ih =>
      have hlook := hpre h (by simp)
      have happ : applyHunk t h = (setContent t h.path h.newContent, HunkStatus.applied) := by
        simp only [applyHunk, hlook]
        rw [if_pos trivial]
      have hdh : ∀ h2 ∈ hs, h.path ≠ h2.path := (List.pairwise_cons.mp hdist).1
      have hpre2 : ∀ h2 ∈ hs,
          lookupTree (setContent t h.path h.newContent) h2.path =
            some (Entry.file h2.oldContent) := by
        intro h2 hm
        rw [lookupTree_setContent, if_neg (fun hc => hdh h2 hm hc.symm)]
        exact hpre h2 (by simp [hm])
      have ihh := ih (setContent t h.path h.newContent) (List.pairwise_cons.mp hdist).2 hpre2
      have hnotin : h.path ∉ hs.map Hunk.path := by
        intro hmem
        obtain ⟨h2, hm2, he2⟩ := List.mem_map.mp hmem
        exact hdh h2 hm2 he2.symm
      refine ⟨?_, ?_, ?_⟩
      · rw [runHunks_cons, happ]
        simp only [List.map_cons]
        exact congrArg _ ihh.1
      · intro h2 hm2
        rcases List.mem_cons.mp hm2 with he | hm3
        · subst he
          rw [runHunks_cons, happ]
          rw [ihh.2.2 h2.path hnotin, lookupTree_setContent, if_pos rfl, hlook]
          rfl
        · rw [runHunks_cons, happ]
          exact ihh.2.1 h2 hm3
      · intro p hp
        have hp1 : ¬p = h.path := fun hc => hp (by simp [hc])
        have hp2 : p ∉ hs.map Hunk.path := fun hc => hp (by simp [hc])
        rw [runHunks_cons, happ, ihh.2.2 p hp2, lookupTree_setContent, if_neg hp1]

/-- A run over patch files whose hunks all find their old content at
pairwise distinct paths succeeds without abort, reports every hunk
applied, and leaves every touched path holding its new content. -/
theorem runPatches_clean (ps : List PatchFile) (t : Tree)
    (hdist : (allHunks ps).Pairwise (fun a b => a.path ≠ b.path))
    (hpre : ∀ h ∈ allHunks ps, lookupTree t h.path = some (Entry.file h.oldContent)) :
    ∃ t2, runPatches t false ps =
        PatchOutcome.ok t2
          (ps.map (fun p => (p.name, p.hunks.map (fun _ => HunkStatus.applied)))) ∧
      (∀ h ∈ allHunks ps, lookupTree t2 h.path = some (Entry.file h.newContent)) ∧
      (∀ p, p ∉ (allHunks ps).map Hunk.path → lookupTree t2 p = lookupTree t p) := by
  induction ps generalizing t with
  | nil => exact ⟨t, rfl, by simp [allHunks], fun p _ => rfl⟩
  | cons p ps ih =>
      have hsplit := (List.pairwise_append.mp (by simpa [allHunks] using hdist))
      have hpre1 : ∀ h ∈ p.hunks, lookupTree t h.path = some (Entry.file h.oldContent) :=
        fun h hm => hpre h (by simp [allHunks, hm])
      have hrun := runHunks_clean p.hunks t hsplit.1 hpre1
      have hcode : patchExitCode (runHunks t p.hunks).2 = 0 := by
        rw [hrun.1]
        exact patchExitCode_applied p.hunks
      have hpre2 : ∀ h ∈ allHunks ps,
          lookupTree (runHunks t p.hunks).1 h.path = some (Entry.file h.oldContent) := by
        intro h hm
        have hnot : h.path ∉ p.hunks.map Hunk.path := by
          intro hmem
          obtain ⟨h2, hm2, he2⟩ := List.mem_map.mp hmem
          exact hsplit.2.2 h2 hm2 h hm he2
        rw [hrun.2.2 h.path hnot]
        exact hpre h (by simp [allHunks, hm])
      obtain ⟨t2, hok, hnew, hframe⟩ := ih (runHunks t p.hunks).1 hsplit.2.1 hpre2
      refine ⟨t2, ?_, ?_, ?_⟩
      · rw [runPatches_cons, if_neg (by simp [hcode]), hok, List.map_cons, hrun.1]
      · intro h hm
        rcases List.mem_append.mp (by simpa [allHunks] using hm) with hm1 | hm2
        · have hnot : h.path ∉ (allHunks ps).map Hunk.path := by
            intro hmem
            obtain ⟨h2, hm2, he2⟩ := List.mem_map.mp hmem
            exact hsplit.2.2 h hm1 h2 hm2 he2.symm
          rw [hframe h.path hnot]
          exact hrun.2.1 h hm1
        · exact hnew h hm2
      · intro q hq
        have hq1 : q ∉ (allHunks ps).map Hunk.path := by
          intro hc
          apply hq
          obtain ⟨h2, hm2, he2⟩ := List.mem_map.mp hc
          exact List.mem_map.mpr ⟨h2, by simp [allHunks, hm2], he2⟩
        have hq2 : q ∉ p.hunks.map Hunk.path := by
          intro hc
          apply hq
          obtain ⟨h2, hm2, he2⟩ := List.mem_map.mp hc
          exact List.mem_map.mpr ⟨h2, by simp [allHunks, hm2], he2⟩
        rw [hframe q hq1, hrun.2.2 q hq2]

/-- With the no-abort override, a run over patch files whose hunks are
all reversed/already applied completes as a global no-op: the tree is
unchanged and every hunk of every patch is reported skipped, the tool's
non-zero statuses notwithstanding. -/
theorem runPatches_skipAll_true (ps : List PatchFile) (t : Tree)
    (hpre : ∀ h ∈ allHunks ps, lookupTree t h.path = some (Entry.file h.newContent) ∧
      ¬h.oldContent = h.newContent) :
    runPatches t true ps =
      PatchOutcome.ok t
        (ps.map (fun p => (p.name, p.hunks.map (fun _ => HunkStatus.skipped)))) := by
  induction ps with
  | nil => rfl
  | cons p ps ih =>
      have hrun := runHunks_skipAll p.hunks t
        (fun h hm => hpre h (by simp [allHunks, hm]))
      have hrest := ih (fun h hm => hpre h (by simp [allHunks, hm]))
      rw [runPatches_cons, if_neg (by simp)]
      simp [hrun, hrest]

/-- Without the override, a run whose first patch file has a non-empty
hunk list that is entirely reversed/already applied aborts right there:
the tool reports every hunk skipped yet exits 1, and the returncode check
treats that exactly like a failure. -/
theorem runPatches_skipAll_abort (p : PatchFile) (rest : List PatchFile) (t : Tree)
    (hne : p.hunks ≠ [])
    (hpre : ∀ h ∈ p.hunks, lookupTree t h.path = some (Entry.file h.newContent) ∧
      ¬h.oldContent = h.newContent) :
    runPatches t false (p :: rest) =
      PatchOutcome.aborted t p.name (p.hunks.map (fun _ => HunkStatus.skipped)) 1 := by
  have hrun := runHunks_skipAll p.hunks t hpre
  have hcode : patchExitCode (runHunks t p.hunks).2 = 1 := by
    rw [hrun]
    exact patchExitCode_skipped p.hunks hne
  rw [runPatches_cons, if_pos (by simp [hcode])]
  rw [hcode, hrun]

/-- Appending more patches after a successfully processed list continues
from the resulting tree. -/
theorem runPatches_append_ok (ps1 ps2 : List PatchFile) (t t1 : Tree)
    (lg1 : List (String × List HunkStatus)) (b : Bool)
    (h : runPatches t b ps1 = PatchOutcome.ok t1 lg1) :
    runPatches t b (ps1 ++ ps2) =
      match runPatches t1 b ps2 with
      | PatchOutcome.ok t2 lg2 => PatchOutcome.ok t2 (lg1 ++ lg2)
      | ab => ab := by
  induction ps1 generalizing t lg1 with
  | nil =>
      simp only [runPatches, PatchOutcome.ok.injEq] at h
      rw [List.nil_append, ← h.1]
      cases hr : runPatches t b ps2 with
      | ok t2 lg2 => simp [← h.2]
      | aborted _ _ _ _ => simp
  | cons p ps ih =>
      rw [runPatches_cons] at h
      rw [List.cons_append, runPatches_cons]
      split at h
      · exact absurd h (by simp)
      next hcond =>
        rw [if_neg hcond]
        cases hr : runPatches (runHunks t p.hunks).1 b ps with
        | aborted t3 nm out code =>
            rw [hr] at h
            exact absurd h (by simp)
        | ok t3 lg3 =>
            rw [hr] at h
            simp only [PatchOutcome.ok.injEq] at h
            rw [ih _ _ (h.1 ▸ hr)]
            cases hr2 : runPatches t1 b ps2 with
            | ok t4 lg4 => simp [← h.2]
            | aborted _ _ _ _ => simp

/-- With the no-abort override set, the patch loop never aborts: it
processes every patch file in order, continuing past failures. -/
theorem runPatches_true_ok (ps : List PatchFile) (t : Tree) :
    ∃ t2 lg, runPatches t true ps = PatchOutcome.ok t2 lg ∧
      lg.map Prod.fst = ps.map PatchFile.name := by
  induction ps generalizing t with
  | nil => exact ⟨t, [], rfl, rfl⟩
  | cons p ps ih =>
      obtain ⟨t2, lg, hr, hn⟩ := ih (runHunks t p.hunks).1
      refine ⟨t2, (p.name, (runHunks t p.hunks).2) :: lg, ?_, by simp [hn]⟩
      rw [runPatches_cons, if_neg (by simp), hr]

/-- Whenever the patch loop aborts, the exit status is the patch tool's
non-zero status (1 in this model), the captured output shows a hunk that
was not applied (a real conflict or a reversed/already-applied skip), the
recorded name is one of the processed patch files, and the no-abort
override was not set. -/
theorem runPatches_aborted_code (ps : List PatchFile) (t t2 : Tree) (nm : String)
    (out : List HunkStatus) (code : Nat) (b : Bool)
    (h : runPatches t b ps = PatchOutcome.aborted t2 nm out code) :
    code = 1 ∧ (HunkStatus.failed ∈ out ∨ HunkStatus.skipped ∈ out) ∧
      nm ∈ ps.map PatchFile.name ∧ b = false := by
  induction ps generalizing t with
  | nil => exact absurd h (by simp [runPatches])
  | cons p ps ih =>
      rw [runPatches_cons] at h
      split at h
      next hcond =>
        simp only [PatchOutcome.aborted.injEq] at h
        obtain ⟨hcode, hb⟩ := hcond
        obtain ⟨hfc, hmem⟩ := patchExitCode_ne_zero _ hcode
        refine ⟨by rw [← h.2.2.2, hfc], ?_, ?_, hb⟩
        · rw [← h.2.2.1]
          exact hmem
        · rw [← h.2.1]
          simp
      next hcond =>
        cases hr : runPatches (runHunks t p.hunks).1 b ps with
        | ok _ _ =>
            rw [hr] at h
            exact absurd h (by simp)
        | aborted t3 nm3 out3 c3 =>
            rw [hr] at h
            simp only [PatchOutcome.aborted.injEq] at h
            obtain ⟨h1, h2, h3, h4⟩ := h
            subst h1
            subst h2
            subst h3
            subst h4
            obtain ⟨hc, hn, ho, hcd⟩ := ih _ hr
            exact ⟨hc, hn, List.mem_cons_of_mem _ ho, hcd⟩

/-! ### Characterization of the setup_files branches -/

theorem setup_files_noParent (env : Env) (input_dir : Tree) (st : FState)
    (pd : List PatchFile) (b : Bool) (h : st.parentExists = false) :
    setup_files env input_dir st pd b =
      { error := some SetupError.typeError, output := st.output, staging := none } := by
  simp [setup_files, h]

theorem setup_files_copyFail (env : Env) (input_dir : Tree) (st : FState)
    (pd : List PatchFile) (b : Bool) (hp : st.parentExists = true)
    (h1 : env.fastCopyOk = false) (h2 : env.fallbackCopyOk = false) :
    setup_files env input_dir st pd b =
      { error := some (SetupError.copyFailed env.cpExitCode)
        output := st.output
        staging := some env.copyLeftover } := by
  simp [setup_files, hp, h1, h2]

theorem setup_files_patchAbort (env : Env) (input_dir : Tree) (st : FState)
    (pd : List PatchFile) (b : Bool) (t : Tree) (nm : String)
    (out : List HunkStatus) (code : Nat)
    (hp : st.parentExists = true)
    (hc : env.fastCopyOk = true ∨ env.fallbackCopyOk = true)
    (ha : apply_patches input_dir pd b = PatchOutcome.aborted t nm out code) :
    setup_files env input_dir st pd b =
      { error := some (SetupError.patchFailed nm code)
        output := st.output
        staging := some t } := by
  have hcf : ¬(env.fastCopyOk = false ∧ env.fallbackCopyOk = false) := by
    rcases hc with h | h <;> simp [h]
  simp [setup_files, hp, hcf, ha]

theorem setup_files_ok (env : Env) (input_dir : Tree) (st : FState)
    (pd : List PatchFile) (b : Bool) (t : Tree) (lg : List (String × List HunkStatus))
    (hp : st.parentExists = true)
    (hc : env.fastCopyOk = true ∨ env.fallbackCopyOk = true)
    (ha : apply_patches input_dir pd b = PatchOutcome.ok t lg) :
    setup_files env input_dir st pd b =
      { error := none
        output := some (match st.output with
          | none => toOutDir t env.now
          | some out0 => rsyncDir t out0 env.now)
        staging := none } := by
  have hcf : ¬(env.fastCopyOk = false ∧ env.fallbackCopyOk = false) := by
    rcases hc with h | h <;> simp [h]
  cases ho : st.output with
  | none => simp [setup_files, hp, hcf, ha, ho]
  | some out0 => simp [setup_files, hp, hcf, ha, ho]

/-- A successful run implies: the parent existed, at least one copy
attempt worked, and the patch run completed without abort. -/
theorem setup_files_success (env : Env) (input_dir : Tree) (st : FState)
    (pd : List PatchFile) (b : Bool)
    (h : (setup_files env input_dir st pd b).error = none) :
    st.parentExists = true ∧
    (env.fastCopyOk = true ∨ env.fallbackCopyOk = true) ∧
    ∃ t lg, apply_patches input_dir pd b = PatchOutcome.ok t lg := by
  cases hp : st.parentExists with
  | false =>
      rw [setup_files_noParent env input_dir st pd b hp] at h
      simp at h
  | true =>
      by_cases hc : env.fastCopyOk = true ∨ env.fallbackCopyOk = true
      · cases ha : apply_patches input_dir pd b with
        | aborted t nm out code =>
            rw [setup_files_patchAbort env input_dir st pd b t nm out code hp hc ha] at h
            simp at h
        | ok t lg => exact ⟨rfl, hc, t, lg, rfl⟩
      · have h1 : env.fastCopyOk = false := by
          cases hf : env.fastCopyOk
          · rfl
          · exact absurd (Or.inl hf) hc
        have h2 : env.fallbackCopyOk = false := by
          cases hf : env.fallbackCopyOk
          · rfl
          · exact absurd (Or.inr hf) hc
        rw [setup_files_copyFail env input_dir st pd b hp h1 h2] at h
        simp at h

/-! ### The claims -/

/-- Claim C1: for every source tree and patch set on which `setup_files`
succeeds (default abort flag), the resulting output directory's contents
are exactly the staged source tree with all patches applied; in
particular, for a patch directory with zero patches the output directory
is byte-identical to the source tree. -/
theorem c1_output_reflects_patched_source (env : Env) (input_dir : Tree) (st : FState)
    (pd : List PatchFile)
    (h : (setup_files env input_dir st pd false).error = none) :
    ∃ od, (setup_files env input_dir st pd false).output = some od ∧
      stripOut od = (apply_patches input_dir pd false).tree ∧
      (pd = [] → stripOut od = input_dir) := by
  obtain ⟨hp, hc, t, lg, ha⟩ := setup_files_success env input_dir st pd false h
  rw [setup_files_ok env input_dir st pd false t lg hp hc ha]
  have htree : (apply_patches input_dir pd false).tree = t := by rw [ha]; rfl
  have hnil : pd = [] → t = input_dir := by
    intro hpd
    subst hpd
    have : apply_patches input_dir [] false = PatchOutcome.ok input_dir [] := rfl
    rw [this] at ha
    injection ha with h1 h2
    exact h1.symm
  cases ho : st.output with
  | none =>
      refine ⟨toOutDir t env.now, rfl, ?_, ?_⟩
      · rw [stripOut_toOutDir, htree]
      · intro hpd
        rw [stripOut_toOutDir]
        exact hnil hpd
  | some out0 =>
      refine ⟨rsyncDir t out0 env.now, rfl, ?_, ?_⟩
      · rw [stripOut_rsyncDir, htree]
      · intro hpd
        rw [stripOut_rsyncDir]
        exact hnil hpd

/-- Claim C2: with the default abort flag, every run in which the copy
step (both attempts) or the patch step fails aborts with a non-zero exit
status before any promotion: the staging directory is left in place for
inspection and the persistent output directory is exactly its pre-run
state. -/
theorem c2_failure_preserves_output (env : Env) (input_dir : Tree) (st : FState)
    (pd : List PatchFile) (err : SetupError)
    (hcp : env.cpExitCode ≠ 0)
    (h : (setup_files env input_dir st pd false).error = some err)
    (hnotty : err ≠ SetupError.typeError) :
    (setup_files env input_dir st pd false).output = st.output ∧
    (setup_files env input_dir st pd false).staging.isSome = true ∧
    (∀ c, err = SetupError.copyFailed c → c ≠ 0) ∧
    (∀ nm c, err = SetupError.patchFailed nm c → c ≠ 0) := by
  cases hp : st.parentExists with
  | false =>
      rw [setup_files_noParent env input_dir st pd false hp] at h
      simp only [Option.some.injEq] at h
      exact absurd h.symm hnotty
  | true =>
      by_cases hc : env.fastCopyOk = true ∨ env.fallbackCopyOk = true
      · cases ha : apply_patches input_dir pd false with
        | ok t lg =>
            rw [setup_files_ok env input_dir st pd false t lg hp hc ha] at h
            simp at h
        | aborted t nm out code =>
            have hq := setup_files_patchAbort env input_dir st pd false t nm out code hp hc ha
            rw [hq] at h ⊢
            simp only [Option.some.injEq] at h
            obtain ⟨hcode, -, -, -⟩ := runPatches_aborted_code (patchList pd) input_dir
              t nm out code false ha
            refine ⟨rfl, rfl, ?_, ?_⟩
            · intro c hcE
              rw [hcE] at h
              cases h
            · intro nm2 c hcE
              rw [hcE] at h
              cases h.symm
              omega
      · have h1 : env.fastCopyOk = false := by
          cases hf : env.fastCopyOk
          · rfl
          · exact absurd (Or.inl hf) hc
        have h2 : env.fallbackCopyOk = false := by
          cases hf : env.fallbackCopyOk
          · rfl
          · exact absurd (Or.inr hf) hc
        have hq := setup_files_copyFail env input_dir st pd false hp h1 h2
        rw [hq] at h ⊢
        simp only [Option.some.injEq] at h
        refine ⟨rfl, rfl, ?_, ?_⟩
        · intro c hcE
          rw [hcE] at h
          cases h.symm
          exact hcp
        · intro nm2 c hcE
          rw [hcE] at h
          cases h

/-- Claim C3, counterexample: the code does not treat an already-applied
patch as a no-op.  On the sample tree the patch set `[patchA]` applies
cleanly once; applying the same set again to the patched tree makes the
tool skip the hunk as reversed/already applied yet exit 1, and
`apply_patches` — which checks only for a non-zero returncode — aborts
with that status instead of succeeding. -/
theorem c3_counterexample :
    apply_patches srcW [patchA] false =
      PatchOutcome.ok
        [("a.rs", Entry.file "A1"), ("b.rs", Entry.file "B0"), ("ln", Entry.link "a.rs")]
        [("rustc-0001-a.patch", [HunkStatus.applied])] ∧
    apply_patches
        [("a.rs", Entry.file "A1"), ("b.rs", Entry.file "B0"), ("ln", Entry.link "a.rs")]
        [patchA] false =
      PatchOutcome.aborted
        [("a.rs", Entry.file "A1"), ("b.rs", Entry.file "B0"), ("ln", Entry.link "a.rs")]
        "rustc-0001-a.patch" [HunkStatus.skipped] 1 ∧
    ¬∃ t2 lg, apply_patches
        [("a.rs", Entry.file "A1"), ("b.rs", Entry.file "B0"), ("ln", Entry.link "a.rs")]
        [patchA] false = PatchOutcome.ok t2 lg := by
  have hb : apply_patches
      [("a.rs", Entry.file "A1"), ("b.rs", Entry.file "B0"), ("ln", Entry.link "a.rs")]
      [patchA] false =
    PatchOutcome.aborted
      [("a.rs", Entry.file "A1"), ("b.rs", Entry.file "B0"), ("ln", Entry.link "a.rs")]
      "rustc-0001-a.patch" [HunkStatus.skipped] 1 := by decide
  refine ⟨by decide, hb, ?_⟩
  rintro ⟨t2, lg, h⟩
  rw [hb] at h
  simp at h

/-- Claim C3 (amended): a reversed/already-applied patch is reported
skipped in the tool's output but still makes the tool exit 1, and
`apply_patches` aborts on any non-zero status: when the selected patch
set applies cleanly to a fresh staging copy (each hunk finds its old
content, hunks touch pairwise distinct paths, each hunk changes its file,
and the first selected patch has at least one hunk), applying the same
set a second time to the patched tree aborts at that first patch with
exit code 1 and a captured output reporting every hunk skipped — unless
the no-patch-abort override is set, in which case the second application
completes as a no-op with every hunk of every patch reported skipped. -/
theorem c3_already_applied_aborts (pd : List PatchFile) (src : Tree)
    (p : PatchFile) (rest : List PatchFile)
    (hlist : patchList pd = p :: rest) (hne : p.hunks ≠ [])
    (hdist : (allHunks (patchList pd)).Pairwise (fun a b => a.path ≠ b.path))
    (hpre : ∀ h ∈ allHunks (patchList pd),
      lookupTree src h.path = some (Entry.file h.oldContent) ∧
      ¬h.oldContent = h.newContent) :
    ∃ t2, apply_patches src pd false =
        PatchOutcome.ok t2 ((patchList pd).map (fun q =>
          (q.name, q.hunks.map (fun _ => HunkStatus.applied)))) ∧
      apply_patches t2 pd false =
        PatchOutcome.aborted t2 p.name (p.hunks.map (fun _ => HunkStatus.skipped)) 1 ∧
      apply_patches t2 pd true =
        PatchOutcome.ok t2 ((patchList pd).map (fun q =>
          (q.name, q.hunks.map (fun _ => HunkStatus.skipped)))) := by
  obtain ⟨t2, hok, hnew, -⟩ := runPatches_clean (patchList pd) src hdist
    (fun h hm => (hpre h hm).1)
  have hskip : ∀ h ∈ allHunks (patchList pd),
      lookupTree t2 h.path = some (Entry.file h.newContent) ∧
      ¬h.oldContent = h.newContent :=
    fun h hm => ⟨hnew h hm, (hpre h hm).2⟩
  refine ⟨t2, hok, ?_, ?_⟩
  · show runPatches t2 false (patchList pd) = _
    rw [hlist]
    refine runPatches_skipAll_abort p rest t2 hne ?_
    intro h hm
    refine hskip h ?_
    rw [hlist]
    simp [allHunks, hm]
  · exact runPatches_skipAll_true (patchList pd) t2 hskip

/-- Claim C4: `apply_patches` selects exactly the files of the patch
directory whose names match the `rustc-*` convention, and processes them
in lexicographic filename order: the selected list is sorted by name and
is a permutation of the matching subset; with the no-abort flag set (so
no failure cuts the loop short), the run log records exactly the selected
filenames in that order. -/
theorem c4_selection_sorted_and_filtered (pd : List PatchFile) (t : Tree) :
    (patchList pd).Pairwise nameLe ∧
    (patchList pd).Perm (pd.filter (fun p => matchesRustcGlob p.name)) ∧
    (∀ p ∈ patchList pd, matchesRustcGlob p.name = true) ∧
    ∃ t2 lg, apply_patches t pd true = PatchOutcome.ok t2 lg ∧
      lg.map Prod.fst = (patchList pd).map PatchFile.name := by
  refine ⟨?_, ?_, ?_, ?_⟩
  · exact List.sorted_insertionSort nameLe (pd.filter (fun p => matchesRustcGlob p.name))
  · exact List.perm_insertionSort nameLe (pd.filter (fun p => matchesRustcGlob p.name))
  · intro p hp
    have hm : p ∈ pd.filter (fun p => matchesRustcGlob p.name) :=
      (List.perm_insertionSort nameLe (pd.filter (fun p => matchesRustcGlob p.name))).mem_iff.mp hp
    exact (List.mem_filter.mp hm).2
  · exact runPatches_true_ok (patchList pd) t

/-- Claim C5: a patch failing with a real conflict aborts the whole run
immediately at that patch, recording its name and its captured output and
exiting with the patch tool's non-zero status code; conversely every
abort carries status 1 and an output showing a hunk that was not applied
(the tool does not distinguish conflicts from reversed/already-applied
skips by status); with the explicit no-patch-abort override the loop
instead continues past failures and processes every selected patch. -/
theorem c5_conflict_abort_policy (pd : List PatchFile) (src : Tree) :
    (∀ t2 nm out code, apply_patches src pd false = PatchOutcome.aborted t2 nm out code →
      code = 1 ∧ code ≠ 0 ∧ (HunkStatus.failed ∈ out ∨ HunkStatus.skipped ∈ out) ∧
        nm ∈ (patchList pd).map PatchFile.name) ∧
    (∀ ps1 p ps2 t1 lg1, patchList pd = ps1 ++ p :: ps2 →
      runPatches src false ps1 = PatchOutcome.ok t1 lg1 →
      HunkStatus.failed ∈ (runHunks t1 p.hunks).2 →
      apply_patches src pd false =
        PatchOutcome.aborted (runHunks t1 p.hunks).1 p.name (runHunks t1 p.hunks).2 1) ∧
    (∃ t2 lg, apply_patches src pd true = PatchOutcome.ok t2 lg ∧
      lg.map Prod.fst = (patchList pd).map PatchFile.name) := by
  refine ⟨?_, ?_, runPatches_true_ok (patchList pd) src⟩
  · intro t2 nm out code hab
    obtain ⟨hc, hmem, hname, -⟩ :=
      runPatches_aborted_code (patchList pd) src t2 nm out code false hab
    exact ⟨hc, by omega, hmem, hname⟩
  · intro ps1 p ps2 t1 lg1 hsplit hok hfail
    have hcode : patchExitCode (runHunks t1 p.hunks).2 = 1 := by
      simp [patchExitCode, hfail]
    show runPatches src false (patchList pd) = _
    rw [hsplit, runPatches_append_ok ps1 (p :: ps2) src t1 lg1 false hok,
      runPatches_cons]
    rw [if_pos (by simp [hcode])]
    rw [hcode]

/-- Claim C6: when the fast reflink copy fails but the fallback full copy
succeeds, the run proceeds exactly as if the fast copy had succeeded —
the copy failure is not reported and the routine never fails because of
the fast path alone. -/
theorem c6_fallback_copy_recovers (env : Env) (input_dir : Tree) (st : FState)
    (pd : List PatchFile) (b : Bool)
    (_h1 : env.fastCopyOk = false) (h2 : env.fallbackCopyOk = true) :
    setup_files env input_dir st pd b =
      setup_files { env with fastCopyOk := true } input_dir st pd b ∧
    (∀ c, (setup_files env input_dir st pd b).error ≠ some (SetupError.copyFailed c)) := by
  constructor
  · simp [setup_files, h2]
  · intro c
    cases hp : st.parentExists with
    | false =>
        rw [setup_files_noParent env input_dir st pd b hp]
        simp
    | true =>
        cases ha : apply_patches input_dir pd b with
        | ok t lg =>
            rw [setup_files_ok env input_dir st pd b t lg hp (Or.inr h2) ha]
            simp
        | aborted t nm out code =>
            rw [setup_files_patchAbort env input_dir st pd b t nm out code hp (Or.inr h2) ha]
            simp

/-- Claim C7: after a successful patch run, promotion behaves as follows:
if the output directory does not exist, the staging tree becomes the
output wholesale (rename); if it exists, the sync keeps byte-identical
files exactly as they were (mtime included), rewrites differing or new
files with the current time, deletes paths absent from staging, preserves
symlinks, and in all cases the staging directory is gone afterwards. -/
theorem c7_promotion_rename_or_sync (env : Env) (input_dir : Tree) (st : FState)
    (pd : List PatchFile) (b : Bool) (t : Tree) (lg : List (String × List HunkStatus))
    (hp : st.parentExists = true)
    (hc : env.fastCopyOk = true ∨ env.fallbackCopyOk = true)
    (ha : apply_patches input_dir pd b = PatchOutcome.ok t lg) :
    (setup_files env input_dir st pd b).staging = none ∧
    (st.output = none →
      (setup_files env input_dir st pd b).output = some (toOutDir t env.now)) ∧
    (∀ out0, st.output = some out0 →
      ∃ od, (setup_files env input_dir st pd b).output = some od ∧
        (∀ p e f, lookupTree t p = some e → lookupOut out0 p = some f → f.entry = e →
          lookupOut od p = some f) ∧
        (∀ p e, lookupTree t p = some e →
          (∀ f, lookupOut out0 p = some f → f.entry ≠ e) →
          lookupOut od p = some (OutFile.mk e env.now)) ∧
        (∀ p, lookupTree t p = none → lookupOut od p = none) ∧
        (∀ p tgt, lookupTree t p = some (Entry.link tgt) →
          ∃ m, lookupOut od p = some (OutFile.mk (Entry.link tgt) m))) := by
  rw [setup_files_ok env input_dir st pd b t lg hp hc ha]
  refine ⟨rfl, ?_, ?_⟩
  · intro ho
    rw [ho]
  · intro out0 ho
    rw [ho]
    refine ⟨rsyncDir t out0 env.now, rfl, ?_, ?_, ?_, ?_⟩
    · intro p e f hl hout hent
      rw [lookupOut_rsyncDir, hl]
      simp only [Option.map_some']
      rw [hout]
      simp [syncFile, hent]
    · intro p e hl hdiff
      rw [lookupOut_rsyncDir, hl]
      simp only [Option.map_some']
      cases hout : lookupOut out0 p with
      | none => simp [syncFile]
      | some f =>
          have := hdiff f hout
          simp [syncFile, this]
    · intro p hl
      rw [lookupOut_rsyncDir, hl]
      rfl
    · intro p tgt hl
      rw [lookupOut_rsyncDir, hl]
      simp only [Option.map_some']
      cases hout : lookupOut out0 p with
      | none => exact ⟨env.now, rfl⟩
      | some f =>
          by_cases hent : f.entry = Entry.link tgt
          · refine ⟨f.mtime, ?_⟩
            simp [syncFile, hent]
            exact (OutFile.mk.injEq _ _ _ _).mpr ⟨hent.symm, rfl⟩ ▸ rfl
          · refine ⟨env.now, ?_⟩
            simp [syncFile, hent]

/-- Claim C8: after two consecutive successful runs with unchanged source
tree and patch set, the second run rewrites nothing: its output directory
is exactly the first run's output directory, every file and every
modification time included. -/
theorem c8_second_run_touches_nothing (env env2 : Env) (input_dir : Tree) (st : FState)
    (pd : List PatchFile)
    (hnd : (input_dir.map Prod.fst).Nodup)
    (h1 : (setup_files env input_dir st pd false).error = none)
    (hc2 : env2.fastCopyOk = true ∨ env2.fallbackCopyOk = true) :
    (setup_files env2 input_dir
      { output := (setup_files env input_dir st pd false).output
        staging := (setup_files env input_dir st pd false).staging
        parentExists := true } pd false).error = none ∧
    (setup_files env2 input_dir
      { output := (setup_files env input_dir st pd false).output
        staging := (setup_files env input_dir st pd false).staging
        parentExists := true } pd false).output =
      (setup_files env input_dir st pd false).output := by
  obtain ⟨hp, hc, t, lg, ha⟩ := setup_files_success env input_dir st pd false h1
  have hr1 := setup_files_ok env input_dir st pd false t lg hp hc ha
  have hkeys : t.map Prod.fst = input_dir.map Prod.fst := by
    have := runPatches_keys (patchList pd) input_dir false
    rw [show runPatches input_dir false (patchList pd) = apply_patches input_dir pd false
      from rfl, ha] at this
    exact this
  have hndt : (t.map Prod.fst).Nodup := by
    rw [hkeys]
    exact hnd
  -- the first run's output directory holds exactly the patched tree
  have hout : ∃ od1, (setup_files env input_dir st pd false).output = some od1 ∧
      stripOut od1 = t := by
    rw [hr1]
    cases ho : st.output with
    | none => exact ⟨toOutDir t env.now, rfl, stripOut_toOutDir t env.now⟩
    | some out0 => exact ⟨rsyncDir t out0 env.now, rfl, stripOut_rsyncDir t out0 env.now⟩
  obtain ⟨od1, hod1, hstrip⟩ := hout
  have hr2 := setup_files_ok env2 input_dir
    { output := (setup_files env input_dir st pd false).output
      staging := (setup_files env input_dir st pd false).staging
      parentExists := true } pd false t lg rfl hc2 ha
  rw [hr2]
  simp only [hod1]
  rw [rsyncDir_eq_self od1 t env2.now hstrip hndt]
  exact ⟨trivial, rfl⟩

/-- Claim C9: the staging directory is created fresh on every invocation
— any stale staging directory left by a prior failed run is deleted
first, so the run's result never depends on it — and a run that completes
successfully always leaves no staging directory behind: it was either
removed after the sync or promoted by the rename. -/
theorem c9_staging_fresh_and_cleared (env : Env) (input_dir : Tree) (st : FState)
    (pd : List PatchFile) (b : Bool) :
    (∀ stale, setup_files env input_dir
        { output := st.output, staging := stale, parentExists := st.parentExists } pd b =
      setup_files env input_dir
        { output := st.output, staging := none, parentExists := st.parentExists } pd b) ∧
    ((setup_files env input_dir st pd b).error = none →
      (setup_files env input_dir st pd b).staging = none) := by
  constructor
  · intro stale
    rfl
  · intro h
    obtain ⟨hp, hc, t, lg, ha⟩ := setup_files_success env input_dir st pd b h
    rw [setup_files_ok env input_dir st pd b t lg hp hc ha]

/-- Claim C10: when the parent directory of the output path does not
exist, the run raises the `TypeError` coming from invoking the
`Path.parent` property as if it were a method — before anything is
copied: no staging directory is produced and the output directory is
untouched, so the documented create-parent-if-necessary step can never
succeed. -/
theorem c10_missing_parent_type_error (env : Env) (input_dir : Tree) (st : FState)
    (pd : List PatchFile) (b : Bool) (h : st.parentExists = false) :
    setup_files env input_dir st pd b =
      { error := some SetupError.typeError, output := st.output, staging := none } := by
  simp [setup_files, h]

/-! ### Witnesses: the claims instantiated at concrete runs -/

/-- Witness for C1: a concrete successful run over the sample tree with
two applicable patches and one non-matching file. -/
theorem c1_witness :
    ∃ od, (setup_files envOk srcW stEmpty [patchB, readmeW, patchA] false).output = some od ∧
      stripOut od = (apply_patches srcW [patchB, readmeW, patchA] false).tree ∧
      ([patchB, readmeW, patchA] = ([] : List PatchFile) → stripOut od = srcW) :=
  c1_output_reflects_patched_source envOk srcW stEmpty [patchB, readmeW, patchA] (by decide)

/-- Witness for C2: a run whose second selected patch hits a real
conflict. -/
theorem c2_witness :
    (setup_files envOk srcW stEmpty [conflictW, patchA] false).output = stEmpty.output ∧
    (setup_files envOk srcW stEmpty [conflictW, patchA] false).staging.isSome = true ∧
    (∀ c, SetupError.patchFailed "rustc-0003-c.patch" 1 = SetupError.copyFailed c → c ≠ 0) ∧
    (∀ nm c, SetupError.patchFailed "rustc-0003-c.patch" 1 = SetupError.patchFailed nm c →
      c ≠ 0) :=
  c2_failure_preserves_output envOk srcW stEmpty [conflictW, patchA]
    (SetupError.patchFailed "rustc-0003-c.patch" 1) (by decide) (by decide) (by decide)

/-- Witness for C3 (amended): two patches touching distinct files apply
cleanly; the second run aborts at the first of them with every hunk
reported skipped, and completes as a no-op under the override. -/
theorem c3_witness :
    ∃ t2, apply_patches srcW [patchB, patchA] false =
        PatchOutcome.ok t2 ((patchList [patchB, patchA]).map (fun q =>
          (q.name, q.hunks.map (fun _ => HunkStatus.applied)))) ∧
      apply_patches t2 [patchB, patchA] false =
        PatchOutcome.aborted t2 patchA.name
          (patchA.hunks.map (fun _ => HunkStatus.skipped)) 1 ∧
      apply_patches t2 [patchB, patchA] true =
        PatchOutcome.ok t2 ((patchList [patchB, patchA]).map (fun q =>
          (q.name, q.hunks.map (fun _ => HunkStatus.skipped)))) :=
  c3_already_applied_aborts [patchB, patchA] srcW patchA [patchB]
    (by decide) (by decide) (by decide) (by decide)

/-- Witness for C6: an environment whose reflink copy fails but whose
fallback copy works. -/
theorem c6_witness :
    setup_files envFastFail srcW stEmpty [patchA] false =
      setup_files { envFastFail with fastCopyOk := true } srcW stEmpty [patchA] false ∧
    (∀ c, (setup_files envFastFail srcW stEmpty [patchA] false).error ≠
      some (SetupError.copyFailed c)) :=
  c6_fallback_copy_recovers envFastFail srcW stEmpty [patchA] false (by decide) (by decide)

/-- Witness for C7: promotion into an already-existing output directory
holding one unchanged file and one stale file. -/
theorem c7_witness :
    (setup_files envOk srcW stPrior [patchA] false).staging = none ∧
    (stPrior.output = none →
      (setup_files envOk srcW stPrior [patchA] false).output =
        some (toOutDir [("a.rs", Entry.file "A1"), ("b.rs", Entry.file "B0"),
          ("ln", Entry.link "a.rs")] envOk.now)) ∧
    (∀ out0, stPrior.output = some out0 →
      ∃ od, (setup_files envOk srcW stPrior [patchA] false).output = some od ∧
        (∀ p e f, lookupTree [("a.rs", Entry.file "A1"), ("b.rs", Entry.file "B0"),
            ("ln", Entry.link "a.rs")] p = some e →
          lookupOut out0 p = some f → f.entry = e → lookupOut od p = some f) ∧
        (∀ p e, lookupTree [("a.rs", Entry.file "A1"), ("b.rs", Entry.file "B0"),
            ("ln", Entry.link "a.rs")] p = some e →
          (∀ f, lookupOut out0 p = some f → f.entry ≠ e) →
          lookupOut od p = some (OutFile.mk e envOk.now)) ∧
        (∀ p, lookupTree [("a.rs", Entry.file "A1"), ("b.rs", Entry.file "B0"),
            ("ln", Entry.link "a.rs")] p = none → lookupOut od p = none) ∧
        (∀ p tgt, lookupTree [("a.rs", Entry.file "A1"), ("b.rs", Entry.file "B0"),
            ("ln", Entry.link "a.rs")] p = some (Entry.link tgt) →
          ∃ m, lookupOut od p = some (OutFile.mk (Entry.link tgt) m))) :=
  c7_promotion_rename_or_sync envOk srcW stPrior [patchA] false
    [("a.rs", Entry.file "A1"), ("b.rs", Entry.file "B0"), ("ln", Entry.link "a.rs")]
    [("rustc-0001-a.patch", [HunkStatus.applied])] (by decide) (by decide) (by decide)

/-- Witness for C8: a second run over the first run's output changes
nothing even though its clock differs. -/
theorem c8_witness :
    (setup_files envOk2 srcW
      { output := (setup_files envOk srcW stEmpty [patchA] false).output
        staging := (setup_files envOk srcW stEmpty [patchA] false).staging
        parentExists := true } [patchA] false).error = none ∧
    (setup_files envOk2 srcW
      { output := (setup_files envOk srcW stEmpty [patchA] false).output
        staging := (setup_files envOk srcW stEmpty [patchA] false).staging
        parentExists := true } [patchA] false).output =
      (setup_files envOk srcW stEmpty [patchA] false).output :=
  c8_second_run_touches_nothing envOk envOk2 srcW stEmpty [patchA]
    (by decide) (by decide) (by decide)

/-- Witness for C10: a state whose output-path parent is missing. -/
theorem c10_witness :
    setup_files envOk srcW stNoParent [patchA] false =
      { error := some SetupError.typeError, output := stNoParent.output, staging := none } :=
  c10_missing_parent_type_error envOk srcW stNoParent [patchA] false (by decide)

end SourceManager
